import Mathlib

/-!
Verification of the pypants dependency-resolution core.

This file gives a shallow embedding of the target model, import scanner,
registration, dependency resolution and graph algorithms of the pypants
package processor, and proves properties about them.
-/

namespace Pypants

/-- The build-target variants (Python subclasses of `PythonPackage` /
`BuildTarget`): `library` = PythonLibraryPackage, `binary` = PythonBinaryPackage,
`lambdaFunction` = PythonLambdaPackage, `migration` = AlembicMigrationPackage,
`test` = PythonTestPackage, `behave` = PythonBehaveTestPackage,
`py2sfnProject` = PY2SFNProjectPackage, `requirement` = PythonRequirement. -/
inductive TargetKind where
  | library
  | binary
  | lambdaFunction
  | migration
  | test
  | behave
  | py2sfnProject
  | requirement
deriving DecidableEq, Repr

/-- A build target, with the attributes the resolution engine reads:
`key` is the identifier used for equality/hashing (`BuildTarget.key`; for
`PythonPackage` instances it is set to `self.build_dir` in `__init__`),
`packageName` is `self.package_name`. -/
structure Target where
  kind : TargetKind
  key : String
  packageName : String
deriving DecidableEq, Repr

/-- `BUILD_TARGET_MAP` from `build_targets/__init__.py`: maps a configured
package type string to a target class (here, its kind tag).  Unknown types
have no entry (a `KeyError` in Python). -/
def buildTargetMapKind : String → Option TargetKind
  | "behave" => some .behave
  | "binary" => some .binary
  | "lambda" => some .lambdaFunction
  | "library" => some .library
  | "migration" => some .migration
  | "py2sfn_project" => some .py2sfnProject
  | "requirement" => some .requirement
  | "test" => some .test
  | _ => none

/-- `BuildTarget.dependency_target` with the subclass overrides:
`PythonBinaryPackage.dependency_target` and `PythonLambdaPackage.dependency_target`
return `f"{self.key}:lib"`; every other class inherits the base implementation
returning `self.key` (in particular `AlembicMigrationPackage` defines no
override). -/
def dependencyTarget (t : Target) : String :=
  match t.kind with
  | .binary => t.key ++ ":lib"
  | .lambdaFunction => t.key ++ ":lib"
  | _ => t.key

/-! ## Import scanner (`util.py`) -/

/-- `name.split(".")[0]`: the leading segment of a dotted module path — the
characters before the first `.`, or the whole string when no dot occurs
(exactly the first element Python's `str.split(".")` returns). -/
def firstSegment (s : String) : String :=
  String.mk (s.toList.takeWhile (fun c => c != '.'))

/-- The import statements of a Python module as seen by `ModuleImportVisitor`.
`imp first rest` is `import first, rest...` (the Python AST guarantees at least
one alias, so the first one is a separate field); `impFrom level module` is
`from <level dots><module> import ...` where `module` is `None` exactly when
nothing follows the dots. -/
inductive ImportStmt where
  | imp (first : String) (rest : List String)
  | impFrom (level : Nat) (module : Option String)
deriving DecidableEq, Repr

/-- One visitor step of `ModuleImportVisitor`:
`visit_Import` adds `node.names[0].name.split(".")[0]`;
`visit_ImportFrom` adds `node.module.split(".")[0]` when `node.module` is not
`None` (`node.level` is never consulted). -/
def visitStmt (acc : Finset String) : ImportStmt → Finset String
  | .imp first _ => insert (firstSegment first) acc
  | .impFrom _ none => acc
  | .impFrom _ (some m) => insert (firstSegment m) acc

/-- The full visit: the visitor's `imports` set after walking a module body. -/
def collectImports (stmts : List ImportStmt) : Finset String :=
  stmts.foldl visitStmt ∅

/-- A scanned source file, abstracting `ast.parse` of its contents: either it
parses to a list of import statements or parsing raises `SyntaxError`. -/
inductive PyFile where
  | valid (stmts : List ImportStmt)
  | invalid
deriving DecidableEq

/-- `gather_dependencies_from_module` (util.py): parse the file at `path` and
return the visitor's set of imported names.  `ast.parse` is called with no
`try`/`except`: a file that does not parse raises `SyntaxError` out of the
function (and the exception carries no file path, since `ast.parse(contents)`
is not given a filename). -/
def gatherDependenciesFromModule (read : String → PyFile) (path : String) :
    Except Unit (Finset String) :=
  match read path with
  | .valid stmts => .ok (collectImports stmts)
  | .invalid => .error ()

/-- The scanning stage of `PackageProcessor._gather_dependencies`: the flattened
path list is mapped over `gather_dependencies_from_module` in a worker pool;
an exception raised by any worker is re-raised by `pool.map` in the parent, so
one failure aborts the whole map and no partial result list is produced. -/
def gatherAllImports (read : String → PyFile) : List String → Except Unit (List (Finset String))
  | [] => .ok []
  | p :: ps =>
    match gatherDependenciesFromModule read p with
    | .error e => .error e
    | .ok r =>
      match gatherAllImports read ps with
      | .error e => .error e
      | .ok rs => .ok (r :: rs)

/-! ## Dependency resolution (`build_targets/python_package.py`) -/

/-- `PythonRequirement(package_name)`: key is `f"{REQUIREMENTS_DIR}:{package_name}"`
where `REQUIREMENTS_DIR` comes from project configuration (passed here as
`reqDir`). -/
def requirementTarget (reqDir name : String) : Target :=
  ⟨.requirement, reqDir ++ ":" ++ name, name⟩

/-- Python `set.add` on a set of `BuildTarget`s: `BuildTarget.__eq__` and
`__hash__` compare by `key` alone, so an element is added only when no member
with the same key is present.  The set is represented as its insertion-order
list. -/
def pyInsert (t : Target) (deps : List Target) : List Target :=
  if deps.any (fun d => d.key == t.key) then deps else deps ++ [t]

/-- `PythonPackage.add_dependency(targets, package_name)`:
if `package_name in targets and package_name != self.package_name`, add
`targets[package_name]` to the dependency set; `elif package_name in
THIRD_PARTY_IMPORT_MAP`, add `PythonRequirement(THIRD_PARTY_IMPORT_MAP[package_name])`;
otherwise add nothing. -/
def addDependency (reqDir : String) (targets : List (String × Target))
    (thirdPartyImportMap : List (String × String)) (self : Target)
    (deps : List Target) (packageName : String) : List Target :=
  match List.lookup packageName targets with
  | some t =>
    if packageName ≠ self.packageName then
      pyInsert t deps
    else
      match List.lookup packageName thirdPartyImportMap with
      | some req => pyInsert (requirementTarget reqDir req) deps
      | none => deps
  | none =>
    match List.lookup packageName thirdPartyImportMap with
    | some req => pyInsert (requirementTarget reqDir req) deps
    | none => deps

/-- `str(Path(a).joinpath(b))`. -/
def pathJoin (a b : String) : String := a ++ "/" ++ b

/-- `PY2SFNProjectPackage.find_target_paths`: returns the single pair
`(self, str(Path(self.build_dir).joinpath("project.sfn")))` (for a
`PythonPackage` the key equals the build dir, so `t.key` stands for
`self.build_dir`). -/
def findTargetPathsPy2sfn (t : Target) : List (Target × String) :=
  [(t, pathJoin t.key "project.sfn")]

/-! ## Registration of code targets (`process_packages.py`) -/

/-- One discovered code package: a directory with a `setup.py`, whose `src`
directory holds exactly one package folder.  `srcDir` is
`str(setup_py_path.parent / "src")` and `srcPackageName` is the basename of
the single entry under it; `pkgType` is the configured package type (taken
from `.pypants.cfg`, `None` when absent). -/
structure DiscoveredCodePackage where
  topDirName : String
  packageDirName : String
  srcDir : String
  srcPackageName : String
  pkgType : Option String
deriving DecidableEq, Repr

/-- Errors of the registration step modelled here. -/
inductive RegError where
  | duplicateTarget
  | unknownPackageType
deriving DecidableEq, Repr

/-- Constructing the code target (`_register_task_targets_code`): the type
defaults to `library`; the constructor call passes `package_name=package_name`
and `build_dir=str(src_dir)`, and `PythonPackage.__init__` sets
`self.key = self.build_dir`. -/
def mkCodeTarget (d : DiscoveredCodePackage) : Option Target :=
  match d.pkgType with
  | none => some ⟨.library, d.srcDir, d.srcPackageName⟩
  | some ty => (buildTargetMapKind ty).map (fun k => ⟨k, d.srcDir, d.srcPackageName⟩)

/-- The registration tail of `_register_task_targets_code` for one discovered
package: skip when the target key is ignored, raise `DuplicateTarget` when
`package_name in self._targets`, otherwise execute
`self._targets[package_name] = target`. -/
def registerCodeTarget (ignoreTargets : List String) (targets : List (String × Target))
    (d : DiscoveredCodePackage) : Except RegError (List (String × Target)) :=
  match mkCodeTarget d with
  | none => .error .unknownPackageType
  | some t =>
    if t.key ∈ ignoreTargets then .ok targets
    else if (List.lookup d.srcPackageName targets).isSome then .error .duplicateTarget
    else .ok (targets ++ [(d.srcPackageName, t)])

/-! ## The dependency graph (`process_packages.py` with networkx) -/

/-- A directed graph as networkx builds it: a node list and an edge list
(`add_node` / `add_edge`, with `add_edge` inserting missing endpoints). -/
structure DiGraph (α : Type) where
  nodes : List α
  edges : List (α × α)
deriving DecidableEq, Repr

variable {α : Type} [DecidableEq α]

/-- Well-formedness that networkx guarantees for every graph it builds: both
endpoints of an edge are nodes. -/
def DiGraph.EdgesOk (G : DiGraph α) : Prop :=
  ∀ e ∈ G.edges, e.1 ∈ G.nodes ∧ e.2 ∈ G.nodes

instance (G : DiGraph α) : Decidable G.EdgesOk := by
  unfold DiGraph.EdgesOk
  infer_instance

/-- `l` is a simple cycle over the edge list `e`: nonempty, no repeated
vertices, and every vertex has an edge to its cyclic successor. -/
def IsSimpleCycleIn (e : List (α × α)) (l : List α) : Prop :=
  l ≠ [] ∧ l.Nodup ∧
    ∀ i : Fin l.length,
      (l.get i, l.get ⟨(i.val + 1) % l.length, Nat.mod_lt _ (Nat.lt_of_le_of_lt (Nat.zero_le _) i.isLt)⟩) ∈ e

instance (e : List (α × α)) (l : List α) : Decidable (IsSimpleCycleIn e l) := by
  unfold IsSimpleCycleIn; infer_instance

/-- A cycle list is reported in the canonical rotation: its head is the vertex
appearing earliest in the graph's node list. -/
def isCanonicalRotation (G : DiGraph α) (l : List α) : Bool :=
  match l with
  | [] => false
  | h :: t => (h :: t).all (fun x => List.indexOf h G.nodes.dedup ≤ List.indexOf x G.nodes.dedup)

/-- All ways of inserting `a` somewhere into a list. -/
def insertsOf (a : α) : List α → List (List α)
  | [] => [[a]]
  | b :: bs => (a :: b :: bs) :: (insertsOf a bs).map (fun l => b :: l)

/-- All permutations of a list (a structurally recursive enumeration). -/
def permsOf : List α → List (List α)
  | [] => [[]]
  | a :: as => (permsOf as).flatMap (insertsOf a)

/-- Model of `networkx.simple_cycles`: the list of all simple cycles of the
graph, one canonical rotation per cycle. -/
def simpleCycles (G : DiGraph α) : List (List α) :=
  (G.nodes.dedup.sublists.flatMap permsOf).filter
    (fun l => decide (IsSimpleCycleIn G.edges l) && isCanonicalRotation G l)

/-- `PackageProcessor.ensure_no_circular_imports`: compute
`list(nx.simple_cycles(G))` and raise `CircularImportsFound(cycles)` when the
list is nonempty. -/
def ensureNoCircularImports (G : DiGraph α) : Except (List (List α)) Unit :=
  if (simpleCycles G).length > 0 then .error (simpleCycles G) else .ok ()

/-- `PackageProcessor._build_target_graph`: add every registered target as a
node and an edge from each target to each of its resolved dependencies
(networkx stores nodes and edges as sets, hence the dedup). -/
def buildTargetGraph (ts : List (Target × List Target)) : DiGraph Target :=
  ⟨(ts.flatMap (fun td => td.1 :: td.2)).dedup,
   (ts.flatMap (fun td => td.2.map (fun d => (td.1, d)))).dedup⟩

/-! ### Reachability (`networkx.descendants`) -/

/-- One breadth step: the set together with every direct successor of it. -/
def stepSet (e : List (α × α)) (S : Finset α) : Finset α :=
  S ∪ ((e.filter (fun p => decide (p.1 ∈ S))).map Prod.snd).toFinset

/-- `n` breadth steps from `{v}`. -/
def reachIter (e : List (α × α)) (v : α) : Nat → Finset α
  | 0 => {v}
  | n + 1 => stepSet e (reachIter e v n)

/-- Model of `networkx.descendants G v`: all nodes reachable from `v`, with `v`
itself removed.  Enough iterations to saturate are taken. -/
def descendantsOf (G : DiGraph α) (v : α) : Finset α :=
  (reachIter G.edges v (G.nodes.length + 1)).erase v

/-- Model of `G.subgraph(S)`: the induced subgraph on the node set `S` (the
node list keeps the graph's own node order). -/
def subgraphOn (G : DiGraph α) (S : Finset α) : DiGraph α :=
  ⟨G.nodes.dedup.filter (fun x => decide (x ∈ S)),
   G.edges.filter (fun p => decide (p.1 ∈ S) && decide (p.2 ∈ S))⟩

/-- Reachability along the edge list (reflexive-transitive closure). -/
inductive Reaches (e : List (α × α)) : α → α → Prop where
  | refl (a : α) : Reaches e a a
  | tail {a b c : α} : Reaches e a b → (b, c) ∈ e → Reaches e a c

/-! ### Topological sorting (`networkx.topological_sort`, Kahn's algorithm) -/

/-- Pick the first remaining vertex with no incoming edge from a remaining
vertex. -/
def kahnPick (e : List (α × α)) (r : List α) : Option α :=
  r.find? (fun x => !(e.any (fun p => p.2 == x && r.contains p.1)))

/-- Kahn's algorithm: repeatedly emit a vertex of in-degree zero in the
remaining subgraph.  Returns `none` when no such vertex exists (the graph has
a cycle; networkx raises `NetworkXUnfeasible` there). -/
def kahnAux (e : List (α × α)) : Nat → List α → Option (List α)
  | _, [] => some []
  | 0, _ :: _ => none
  | fuel + 1, x :: xs =>
    match kahnPick e (x :: xs) with
    | none => none
    | some y => (kahnAux e fuel ((x :: xs).erase y)).map (fun out => y :: out)

/-- Model of `networkx.topological_sort`: a node order in which `u` appears
before `v` for every edge `u → v`. -/
def topologicalSortG (G : DiGraph α) : Option (List α) :=
  kahnAux G.edges G.nodes.length G.nodes

/-! ## The package processor query (`compute_package_dependencies`) -/

/-- Errors raised by `compute_package_dependencies`: `NoTargetFound` with its
message, or the unfeasible-sort error networkx raises on a cyclic graph. -/
inductive QueryError where
  | noTargetFound (msg : String)
  | unfeasible
deriving DecidableEq, Repr

/-- The processor state after registration: the registry map
(registration key to target, in insertion order) and the built target graph. -/
structure Processor where
  targets : List (String × Target)
  graph : DiGraph Target

/-- The `NoTargetFound` message: `f"No target registered named {target_key}."
f" Available targets: {', '.join(sorted(self._targets.keys()))}"`. -/
def availableTargetsMessage (targets : List (String × Target)) (key : String) : String :=
  "No target registered named " ++ key ++ ". Available targets: " ++
    String.intercalate ", " (targets.map Prod.fst).mergeSort

/-- `PackageProcessor.compute_package_dependencies(target_key, include_3rdparty)`:
look the target up (raising `NoTargetFound` with the sorted key list), take
`nx.descendants`, topologically sort the induced subgraph, and drop
`PythonRequirement` instances unless `include_3rdparty`. -/
def computePackageDependencies (p : Processor) (targetKey : String)
    (include3rdparty : Bool) : Except QueryError (List Target) :=
  match List.lookup targetKey p.targets with
  | none => .error (.noTargetFound (availableTargetsMessage p.targets targetKey))
  | some t =>
    let ds := descendantsOf p.graph t
    match topologicalSortG (subgraphOn p.graph ds) with
    | none => .error .unfeasible
    | some out =>
      .ok (if include3rdparty then out else out.filter (fun d => !(d.kind == .requirement)))

/-! ## Concrete targets used in instantiations -/

/-- A concrete library target `a` at `lib/a`. -/
def tgtA : Target := ⟨.library, "lib/a/src", "a"⟩

/-- A concrete library target `b` at `lib/b`. -/
def tgtB : Target := ⟨.library, "lib/b/src", "b"⟩

/-- A concrete library target `c` at `lib/c`. -/
def tgtC : Target := ⟨.library, "lib/c/src", "c"⟩

/-- A concrete library target `k` at `lib/k`. -/
def tgtK : Target := ⟨.library, "lib/k/src", "k"⟩

/-- The spec's synthetic cyclic example: edges `a → b`, `b → c`, `c → a`. -/
def cycleTs : List (Target × List Target) := [(tgtA, [tgtB]), (tgtB, [tgtC]), (tgtC, [tgtA])]

/-- A three-target chain `k → a → b` used to exercise the dependency query. -/
def chainProc : Processor :=
  ⟨[("k", tgtK), ("a", tgtA), ("b", tgtB)],
   buildTargetGraph [(tgtK, [tgtA]), (tgtA, [tgtB]), (tgtB, [])]⟩

/-! ## Scanner lemmas -/

theorem foldl_visitStmt_union (stmts : List ImportStmt) (acc : Finset String) :
    stmts.foldl visitStmt acc = acc ∪ collectImports stmts := by
  induction stmts generalizing acc with
  | nil => simp [collectImports]
  | cons s rest ih =>
    show (rest.foldl visitStmt (visitStmt acc s)) = acc ∪ collectImports (s :: rest)
    rw [ih]
    have hr : collectImports (s :: rest) = visitStmt ∅ s ∪ collectImports rest := by
      show (rest.foldl visitStmt (visitStmt ∅ s)) = visitStmt ∅ s ∪ collectImports rest
      rw [ih]
    rw [hr]
    cases s with
    | imp first rest' =>
      simp [visitStmt, Finset.insert_eq, Finset.union_assoc, Finset.union_left_comm]
    | impFrom lvl m =>
      cases m with
      | none => simp [visitStmt]
      | some mm =>
        simp [visitStmt, Finset.insert_eq, Finset.union_assoc, Finset.union_left_comm]

theorem collectImports_cons (s : ImportStmt) (rest : List ImportStmt) :
    collectImports (s :: rest) = visitStmt ∅ s ∪ collectImports rest := by
  show (rest.foldl visitStmt (visitStmt ∅ s)) = visitStmt ∅ s ∪ collectImports rest
  rw [foldl_visitStmt_union]

/-! ## Resolution lemmas -/

theorem mem_pyInsert {x t : Target} {deps : List Target} (h : x ∈ pyInsert t deps) :
    x ∈ deps ∨ x = t := by
  unfold pyInsert at h
  split at h
  · exact Or.inl h
  · rcases List.mem_append.mp h with h' | h'
    · exact Or.inl h'
    · exact Or.inr (List.mem_singleton.mp h')

theorem self_not_mem_addDependency (reqDir : String) (targets : List (String × Target))
    (tpm : List (String × String)) (self : Target) (deps : List Target) (n : String)
    (Hpkg : ∀ k t, List.lookup k targets = some t → t.packageName = k)
    (hk : self.kind ≠ .requirement) (hd : self ∉ deps) :
    self ∉ addDependency reqDir targets tpm self deps n := by
  intro hmem
  unfold addDependency at hmem
  have hreq : self ∉ pyInsert (requirementTarget reqDir ((List.lookup n tpm).getD "")) deps := by
    intro hm
    rcases mem_pyInsert hm with h | h
    · exact hd h
    · exact hk (by rw [h]; rfl)
  revert hmem
  cases hlook : List.lookup n targets with
  | some t =>
    simp only
    split
    · intro hm
      rcases mem_pyInsert hm with h | h
      · exact hd h
      · have := Hpkg n t hlook
        rw [← h] at this
        exact (by assumption : ¬ n = self.packageName) this.symm
    · cases htpm : List.lookup n tpm with
      | some r =>
        intro hm
        rcases mem_pyInsert hm with h | h
        · exact hd h
        · exact hk (by rw [h]; rfl)
      | none => exact hd
  | none =>
    cases htpm : List.lookup n tpm with
    | some r =>
      intro hm
      rcases mem_pyInsert hm with h | h
      · exact hd h
      · exact hk (by rw [h]; rfl)
    | none => exact hd

theorem self_not_mem_foldl_addDependency (reqDir : String) (targets : List (String × Target))
    (tpm : List (String × String)) (self : Target) (deps : List Target)
    (names : List String)
    (Hpkg : ∀ k t, List.lookup k targets = some t → t.packageName = k)
    (hk : self.kind ≠ .requirement) (hd : self ∉ deps) :
    self ∉ names.foldl (addDependency reqDir targets tpm self) deps := by
  induction names generalizing deps with
  | nil => exact hd
  | cons n rest ih =>
    exact ih _ (self_not_mem_addDependency reqDir targets tpm self deps n Hpkg hk hd)

/-! ## Registration lemmas -/

theorem lookup_append_single {β : Type} (ts : List (String × β)) (k : String) (t : β)
    (h : List.lookup k ts = none) : List.lookup k (ts ++ [(k, t)]) = some t := by
  induction ts with
  | nil => simp [List.lookup]
  | cons p rest ih =>
    by_cases hk : k = p.1
    · exfalso
      rw [show p = (p.1, p.2) from rfl] at h
      simp [List.lookup, hk] at h
    · rw [show p = (p.1, p.2) from rfl] at h ⊢
      simp only [List.lookup, List.cons_append] at h ⊢
      rw [show (k == p.1) = false from beq_eq_false_iff_ne.mpr hk] at h ⊢
      exact ih h

/-! ## Simple-cycle lemmas -/

theorem mem_insertsOf_erase {c : List α} {b : α} (hb : b ∈ c) :
    c ∈ insertsOf b (c.erase b) := by
  induction c with
  | nil => exact absurd hb (List.not_mem_nil b)
  | cons x xs ih =>
    by_cases hx : x = b
    · subst hx
      rw [List.erase_cons_head]
      cases xs with
      | nil => exact List.mem_singleton.mpr rfl
      | cons y ys => exact List.mem_cons_self _ _
    · have hb2 : b ∈ xs := by
        rcases List.mem_cons.mp hb with h | h
        · exact absurd h.symm hx
        · exact h
      have herase : (x :: xs).erase b = x :: xs.erase b := by
        simp [List.erase_cons, hx]
      rw [herase]
      unfold insertsOf
      apply List.mem_cons_of_mem
      exact List.mem_map.mpr ⟨xs, ih hb2, rfl⟩

theorem mem_permsOf_of_perm {s c : List α} (h : c.Perm s) : c ∈ permsOf s := by
  induction s generalizing c with
  | nil =>
    rw [List.Perm.eq_nil h]
    exact List.mem_singleton.mpr rfl
  | cons b bs ih =>
    have h2 := List.cons_perm_iff_perm_erase.mp h.symm
    rcases h2 with ⟨hb, hperm⟩
    unfold permsOf
    exact List.mem_flatMap.mpr ⟨c.erase b, ih hperm.symm, mem_insertsOf_erase hb⟩

theorem isSimpleCycleIn_mono {e e2 : List (α × α)} {l : List α}
    (hsub : ∀ p ∈ e, p ∈ e2) (h : IsSimpleCycleIn e l) : IsSimpleCycleIn e2 l :=
  ⟨h.1, h.2.1, fun i => hsub _ (h.2.2 i)⟩

theorem isSimpleCycleIn_rotate {e : List (α × α)} {l : List α}
    (h : IsSimpleCycleIn e l) (n : Nat) : IsSimpleCycleIn e (l.rotate n) := by
  obtain ⟨hne, hnd, hcyc⟩ := h
  have hpos : 0 < l.length := List.length_pos.mpr hne
  refine ⟨by rwa [Ne, List.rotate_eq_nil_iff], List.nodup_rotate.mpr hnd, ?_⟩
  intro i
  rw [List.get_rotate, List.get_rotate]
  have hlen : (l.rotate n).length = l.length := List.length_rotate l n
  have h2 : ∀ k : Nat, ((k + 1) % (l.rotate n).length + n) % l.length
      = ((k + n) % l.length + 1) % l.length := by
    intro k
    rw [hlen]
    calc ((k + 1) % l.length + n) % l.length
        = (k + 1 + n) % l.length := Nat.mod_add_mod _ _ _
      _ = (k + n + 1) % l.length := by rw [Nat.add_right_comm]
      _ = ((k + n) % l.length + 1) % l.length := (Nat.mod_add_mod _ _ _).symm
  have h3 := hcyc ⟨(i.val + n) % l.length, Nat.mod_lt _ hpos⟩
  convert h3 using 3
  apply Fin.ext
  show ((i.val + 1) % (l.rotate n).length + n) % l.length
      = ((i.val + n) % l.length + 1) % l.length
  exact h2 i.val

theorem mem_nodes_of_isSimpleCycleIn {e : List (α × α)} {ns : List α} {l : List α}
    (he : ∀ p ∈ e, p.1 ∈ ns) (h : IsSimpleCycleIn e l) : ∀ x ∈ l, x ∈ ns := by
  intro x hx
  rcases List.mem_iff_get.mp hx with ⟨i, hi⟩
  have := he _ (h.2.2 i)
  rwa [hi] at this

theorem simpleCycles_sound {G : DiGraph α} {c : List α} (h : c ∈ simpleCycles G) :
    IsSimpleCycleIn G.edges c := by
  unfold simpleCycles at h
  have hp := (List.mem_filter.mp h).2
  rw [Bool.and_eq_true] at hp
  exact of_decide_eq_true hp.1

theorem simpleCycles_complete {G : DiGraph α} (hok : G.EdgesOk) {l : List α}
    (h : IsSimpleCycleIn G.edges l) : ∃ c ∈ simpleCycles G, ∃ n, c = l.rotate n := by
  have hne := h.1
  have hsubn : ∀ x ∈ l, x ∈ G.nodes.dedup := fun x hx =>
    List.mem_dedup.mpr (mem_nodes_of_isSimpleCycleIn (fun p hp => (hok p hp).1) h x hx)
  obtain ⟨m, hm⟩ : ∃ m, l.argmin (fun x => List.indexOf x G.nodes.dedup) = some m := by
    cases ha : l.argmin (fun x => List.indexOf x G.nodes.dedup) with
    | none => exact absurd (List.argmin_eq_none.mp ha) hne
    | some m => exact ⟨m, rfl⟩
  have hmemm : m ∈ l := List.argmin_mem hm
  have hmin : ∀ y ∈ l, List.indexOf m G.nodes.dedup ≤ List.indexOf y G.nodes.dedup :=
    fun y hy => List.le_of_mem_argmin hy hm
  refine ⟨l.rotate (List.indexOf m l), ?_, List.indexOf m l, rfl⟩
  have hcyc : IsSimpleCycleIn G.edges (l.rotate (List.indexOf m l)) :=
    isSimpleCycleIn_rotate h _
  apply List.mem_filter.mpr
  constructor
  · apply List.mem_flatMap.mpr
    have hsubperm := hcyc.2.1.subperm
      (fun x hx => hsubn x (List.mem_rotate.mp hx))
    rcases hsubperm with ⟨s, hs_perm, hs_sub⟩
    exact ⟨s, List.mem_sublists.mpr hs_sub, mem_permsOf_of_perm hs_perm.symm⟩
  · rw [Bool.and_eq_true]
    refine ⟨decide_eq_true hcyc, ?_⟩
    have hpos : 0 < (l.rotate (List.indexOf m l)).length := List.length_pos.mpr hcyc.1
    cases hrc : l.rotate (List.indexOf m l) with
    | nil => exact absurd hrc hcyc.1
    | cons hd tl =>
      have hidx : List.indexOf m l < l.length := List.indexOf_lt_length.mpr hmemm
      have hhd : hd = m := by
        have h0 := List.head?_rotate hidx
        rw [hrc] at h0
        simp only [List.head?_cons] at h0
        have h1 : l.get? (List.indexOf m l) = some m := List.indexOf_get? hmemm
        rw [List.get?_eq_getElem?] at h1
        rw [h1] at h0
        exact Option.some.inj h0
      unfold isCanonicalRotation
      apply List.all_eq_true.mpr
      intro x hx
      apply decide_eq_true
      rw [hhd]
      apply hmin
      have : x ∈ l.rotate (List.indexOf m l) := by rw [hrc]; exact hx
      exact List.mem_rotate.mp this

theorem simpleCycles_eq_nil_iff {G : DiGraph α} (hok : G.EdgesOk) :
    simpleCycles G = [] ↔ ∀ l, ¬ IsSimpleCycleIn G.edges l := by
  constructor
  · intro h l hcyc
    rcases simpleCycles_complete hok hcyc with ⟨c, hcmem, _⟩
    rw [h] at hcmem
    exact List.not_mem_nil c hcmem
  · intro h
    apply List.eq_nil_iff_forall_not_mem.mpr
    intro c hcmem
    exact h c (simpleCycles_sound hcmem)

theorem buildTargetGraph_edgesOk (ts : List (Target × List Target)) :
    (buildTargetGraph ts).EdgesOk := by
  intro e he
  unfold buildTargetGraph at he ⊢
  simp only [List.mem_dedup, List.mem_flatMap, List.mem_map, List.mem_cons] at he ⊢
  rcases he with ⟨td, htd, d, hd, rfl⟩
  exact ⟨⟨td, htd, Or.inl rfl⟩, ⟨td, htd, Or.inr hd⟩⟩

/-! ## Reachability lemmas -/

theorem mem_stepSet {e : List (α × α)} {S : Finset α} {x : α} :
    x ∈ stepSet e S ↔ x ∈ S ∨ ∃ u ∈ S, (u, x) ∈ e := by
  simp only [stepSet, Finset.mem_union, List.mem_toFinset, List.mem_map, List.mem_filter,
    decide_eq_true_eq]
  constructor
  · rintro (h | ⟨p, ⟨hpe, hp1⟩, rfl⟩)
    · exact Or.inl h
    · exact Or.inr ⟨p.1, hp1, hpe⟩
  · rintro (h | ⟨u, hu, hue⟩)
    · exact Or.inl h
    · exact Or.inr ⟨(u, x), ⟨hue, hu⟩, rfl⟩

theorem stepSet_mono {e : List (α × α)} {S T : Finset α} (h : S ⊆ T) :
    stepSet e S ⊆ stepSet e T := by
  intro x hx
  rcases mem_stepSet.mp hx with h1 | ⟨u, hu, hue⟩
  · exact mem_stepSet.mpr (Or.inl (h h1))
  · exact mem_stepSet.mpr (Or.inr ⟨u, h hu, hue⟩)

theorem reachIter_subset_succ (e : List (α × α)) (v : α) (n : Nat) :
    reachIter e v n ⊆ reachIter e v (n + 1) := by
  induction n with
  | zero => exact fun x hx => mem_stepSet.mpr (Or.inl hx)
  | succ n ih => exact stepSet_mono ih

theorem reachIter_subset_of_le (e : List (α × α)) (v : α) {m n : Nat} (h : m ≤ n) :
    reachIter e v m ⊆ reachIter e v n := by
  induction n, h using Nat.le_induction with
  | base => exact fun x hx => hx
  | succ n hmn ih => exact fun x hx => reachIter_subset_succ e v n (ih hx)

theorem reachIter_subset_bound {G : DiGraph α} (hok : G.EdgesOk) (v : α) (n : Nat) :
    reachIter G.edges v n ⊆ insert v G.nodes.toFinset := by
  induction n with
  | zero =>
    intro x hx
    simp only [reachIter, Finset.mem_singleton] at hx
    simp [hx]
  | succ n ih =>
    intro x hx
    rcases mem_stepSet.mp hx with h1 | ⟨u, _, hue⟩
    · exact ih h1
    · exact Finset.mem_insert.mpr (Or.inr (List.mem_toFinset.mpr (hok _ hue).2))

theorem reachIter_stab {e : List (α × α)} {v : α} {n : Nat}
    (h : reachIter e v n = reachIter e v (n + 1)) :
    ∀ m, n ≤ m → reachIter e v m = reachIter e v n := by
  intro m hm
  induction m, hm using Nat.le_induction with
  | base => rfl
  | succ m hnm ih =>
    show stepSet e (reachIter e v m) = reachIter e v n
    rw [ih]
    exact h.symm

theorem reachIter_card_grow (e : List (α × α)) (v : α) (K : Nat)
    (h : ∀ k < K, reachIter e v k ≠ reachIter e v (k + 1)) :
    K + 1 ≤ (reachIter e v K).card := by
  induction K with
  | zero => simp [reachIter]
  | succ K ih =>
    have h1 : K + 1 ≤ (reachIter e v K).card :=
      ih (fun k hk => h k (Nat.lt_succ_of_lt hk))
    have h2 : reachIter e v K ⊂ reachIter e v (K + 1) :=
      Finset.ssubset_iff_subset_ne.mpr
        ⟨reachIter_subset_succ e v K, h K (Nat.lt_succ_self K)⟩
    have := Finset.card_lt_card h2
    omega

theorem reachIter_saturates {G : DiGraph α} (hok : G.EdgesOk) (v : α) (m : Nat) :
    reachIter G.edges v m ⊆ reachIter G.edges v (G.nodes.length + 1) := by
  have hbound : ∀ j, (reachIter G.edges v j).card ≤ G.nodes.length + 1 := by
    intro j
    calc (reachIter G.edges v j).card
        ≤ (insert v G.nodes.toFinset).card :=
          Finset.card_le_card (reachIter_subset_bound hok v j)
      _ ≤ G.nodes.toFinset.card + 1 := Finset.card_insert_le _ _
      _ ≤ G.nodes.length + 1 := Nat.add_le_add_right (List.toFinset_card_le _) 1
  have hstop : ∃ k, k ≤ G.nodes.length ∧
      reachIter G.edges v k = reachIter G.edges v (k + 1) := by
    by_contra hcon
    push_neg at hcon
    have hgrow := reachIter_card_grow G.edges v (G.nodes.length + 1)
      (fun k hk => hcon k (Nat.lt_succ_iff.mp hk))
    have hb := hbound (G.nodes.length + 1)
    omega
  rcases hstop with ⟨k, hk, hfix⟩
  by_cases hm : m ≤ G.nodes.length + 1
  · exact reachIter_subset_of_le G.edges v hm
  · have h1 := reachIter_stab hfix m (by omega)
    have h2 := reachIter_stab hfix (G.nodes.length + 1) (by omega)
    rw [h1, h2]

theorem reaches_of_mem_reachIter (e : List (α × α)) (v : α) :
    ∀ n x, x ∈ reachIter e v n → Reaches e v x := by
  intro n
  induction n with
  | zero =>
    intro x hx
    simp only [reachIter, Finset.mem_singleton] at hx
    rw [hx]
    exact Reaches.refl v
  | succ n ih =>
    intro x hx
    rcases mem_stepSet.mp hx with h1 | ⟨u, hu, hue⟩
    · exact ih x h1
    · exact Reaches.tail (ih u hu) hue

theorem mem_reachIter_of_reaches {e : List (α × α)} {v x : α} (h : Reaches e v x) :
    ∃ n, x ∈ reachIter e v n := by
  induction h with
  | refl => exact ⟨0, by simp [reachIter]⟩
  | tail hab hbc ih =>
    rcases ih with ⟨n, hn⟩
    exact ⟨n + 1, mem_stepSet.mpr (Or.inr ⟨_, hn, hbc⟩)⟩

theorem mem_descendantsOf_iff {G : DiGraph α} (hok : G.EdgesOk) (v x : α) :
    x ∈ descendantsOf G v ↔ Reaches G.edges v x ∧ x ≠ v := by
  unfold descendantsOf
  rw [Finset.mem_erase]
  constructor
  · rintro ⟨hne, hmem⟩
    exact ⟨reaches_of_mem_reachIter G.edges v _ x hmem, hne⟩
  · rintro ⟨hr, hne⟩
    refine ⟨hne, ?_⟩
    rcases mem_reachIter_of_reaches hr with ⟨n, hn⟩
    exact reachIter_saturates hok v n hn

/-! ## Kahn sort lemmas -/

theorem kahnPick_mem {e : List (α × α)} {r : List α} {x : α}
    (h : kahnPick e r = some x) : x ∈ r :=
  List.mem_of_find?_eq_some h

theorem kahnPick_no_incoming {e : List (α × α)} {r : List α} {x : α}
    (h : kahnPick e r = some x) : ∀ u ∈ r, (u, x) ∉ e := by
  intro u hu hux
  have hp := List.find?_some h
  rw [Bool.not_eq_true'] at hp
  have h2 := List.any_eq_false.mp hp (u, x) hux
  simp only [beq_self_eq_true, Bool.true_and, List.contains, List.elem_eq_mem] at h2
  exact h2 (decide_eq_true hu)

theorem kahnPick_none {e : List (α × α)} {r : List α} (h : kahnPick e r = none) :
    ∀ x ∈ r, ∃ u ∈ r, (u, x) ∈ e := by
  intro x hx
  have hp := List.find?_eq_none.mp h x hx
  rw [Bool.not_eq_true, Bool.not_eq_false'] at hp
  rcases List.any_eq_true.mp hp with ⟨p, hpe, hcond⟩
  rw [Bool.and_eq_true] at hcond
  have hx2 : p.2 = x := eq_of_beq hcond.1
  have hmem : p.1 ∈ r := by
    have h5 := hcond.2
    simp only [List.contains, List.elem_eq_mem, decide_eq_true_eq] at h5
    exact h5
  refine ⟨p.1, hmem, ?_⟩
  rw [← hx2]
  exact hpe

theorem kahnAux_perm (e : List (α × α)) :
    ∀ fuel (r : List α) (out : List α), kahnAux e fuel r = some out → out.Perm r := by
  intro fuel
  induction fuel with
  | zero =>
    intro r out h
    cases r with
    | nil =>
      simp only [kahnAux] at h
      rw [← Option.some.inj h]
    | cons a as => simp [kahnAux] at h
  | succ fuel ih =>
    intro r out h
    cases r with
    | nil =>
      simp only [kahnAux] at h
      rw [← Option.some.inj h]
    | cons a as =>
      unfold kahnAux at h
      cases hp : kahnPick e (a :: as) with
      | none => rw [hp] at h; simp at h
      | some y =>
        simp only [hp] at h
        cases hrec : kahnAux e fuel ((a :: as).erase y) with
        | none => rw [hrec] at h; simp at h
        | some out2 =>
          rw [hrec] at h
          simp only [Option.map] at h
          have h3 := Option.some.inj h
          rw [← h3]
          have hperm := ih _ _ hrec
          have hy := kahnPick_mem hp
          exact (hperm.cons y).trans (List.perm_cons_erase hy).symm

theorem kahnAux_order (e : List (α × α)) :
    ∀ fuel (r : List α), r.Nodup → ∀ out, kahnAux e fuel r = some out →
      ∀ a b, (a, b) ∈ e → a ∈ r → b ∈ r → [a, b].Sublist out := by
  intro fuel
  induction fuel with
  | zero =>
    intro r hnd out h a b hab ha hb
    cases r with
    | nil => exact absurd ha (List.not_mem_nil a)
    | cons x xs => simp [kahnAux] at h
  | succ fuel ih =>
    intro r hnd out h a b hab ha hb
    cases r with
    | nil => exact absurd ha (List.not_mem_nil a)
    | cons q qs =>
      unfold kahnAux at h
      cases hp : kahnPick e (q :: qs) with
      | none => rw [hp] at h; simp at h
      | some y =>
        simp only [hp] at h
        cases hrec : kahnAux e fuel ((q :: qs).erase y) with
        | none => rw [hrec] at h; simp at h
        | some out2 =>
          rw [hrec] at h
          simp only [Option.map] at h
          have h3 := Option.some.inj h
          rw [← h3]
          have hperm2 := kahnAux_perm e fuel _ out2 hrec
          by_cases hby : b = y
          · exact absurd hab (by rw [hby]; exact kahnPick_no_incoming hp a ha)
          · have hbe : b ∈ (q :: qs).erase y :=
              (List.mem_erase_of_ne hby).mpr hb
            have hbout : b ∈ out2 := hperm2.mem_iff.mpr hbe
            by_cases hay : a = y
            · rw [hay]
              exact List.Sublist.cons₂ y (List.singleton_sublist.mpr hbout)
            · have hae : a ∈ (q :: qs).erase y :=
                (List.mem_erase_of_ne hay).mpr ha
              exact List.Sublist.cons y
                (ih _ (hnd.erase y) out2 hrec a b hab hae hbe)

theorem kahnAux_none_stuck (e : List (α × α)) :
    ∀ fuel (r : List α), r.length ≤ fuel → kahnAux e fuel r = none →
      ∃ rr, rr ≠ [] ∧ (∀ x ∈ rr, x ∈ r) ∧ kahnPick e rr = none := by
  intro fuel
  induction fuel with
  | zero =>
    intro r hlen h
    cases r with
    | nil => simp [kahnAux] at h
    | cons a as => simp at hlen
  | succ fuel ih =>
    intro r hlen h
    cases r with
    | nil => simp [kahnAux] at h
    | cons a as =>
      unfold kahnAux at h
      cases hp : kahnPick e (a :: as) with
      | none => exact ⟨a :: as, List.cons_ne_nil a as, fun x hx => hx, hp⟩
      | some y =>
        simp only [hp] at h
        cases hrec : kahnAux e fuel ((a :: as).erase y) with
        | some out2 => rw [hrec] at h; simp at h
        | none =>
          have hy := kahnPick_mem hp
          have hlen2 : ((a :: as).erase y).length ≤ fuel := by
            rw [List.length_erase_of_mem hy]
            simp only [List.length_cons] at hlen ⊢
            omega
          rcases ih _ hlen2 hrec with ⟨rr, hrne, hrsub, hrpick⟩
          exact ⟨rr, hrne, fun x hx => List.erase_subset _ _ (hrsub x hx), hrpick⟩

theorem stuck_has_cycle {e : List (α × α)} {r : List α} (hne : r ≠ [])
    (hstuck : ∀ x ∈ r, ∃ u ∈ r, (u, x) ∈ e) :
    ∃ l, IsSimpleCycleIn e l ∧ ∀ x ∈ l, x ∈ r := by
  classical
  have htot : ∀ x, ∃ y, x ∈ r → ((y, x) ∈ e ∧ y ∈ r) := by
    intro x
    by_cases hx : x ∈ r
    · rcases hstuck x hx with ⟨u, hu, hue⟩
      exact ⟨u, fun _ => ⟨hue, hu⟩⟩
    · exact ⟨x, fun h => absurd h hx⟩
  choose f hf using htot
  obtain ⟨x0, hx0⟩ := List.exists_mem_of_ne_nil r hne
  have hg : ∀ n, f^[n] x0 ∈ r := by
    intro n
    induction n with
    | zero => exact hx0
    | succ n ih =>
      rw [Function.iterate_succ_apply']
      exact (hf _ ih).2
  have hedge : ∀ n, (f^[n + 1] x0, f^[n] x0) ∈ e := by
    intro n
    rw [Function.iterate_succ_apply']
    exact (hf _ (hg n)).1
  have hrep : ∃ jj, ∃ ii, ii < jj ∧ f^[ii] x0 = f^[jj] x0 := by
    have hmaps : ∀ i : Fin (r.length + 1), i ∈ Finset.univ →
        f^[i.val] x0 ∈ r.toFinset := fun i _ => List.mem_toFinset.mpr (hg i.val)
    have hlt : r.toFinset.card < (Finset.univ : Finset (Fin (r.length + 1))).card := by
      rw [Finset.card_univ, Fintype.card_fin]
      exact Nat.lt_succ_of_le (List.toFinset_card_le r)
    rcases Finset.exists_ne_map_eq_of_card_lt_of_maps_to hlt hmaps with
      ⟨i, _, j, _, hij, heq⟩
    rcases Ne.lt_or_lt hij with h | h
    · exact ⟨j.val, i.val, h, heq⟩
    · exact ⟨i.val, j.val, h, heq.symm⟩
  obtain ⟨i0, hi0j, heq⟩ := Nat.find_spec hrep
  have hinj : ∀ p q, p < q → q < Nat.find hrep → f^[p] x0 ≠ f^[q] x0 := by
    intro p q hpq hq heqpq
    exact Nat.find_min hrep hq ⟨p, hpq, heqpq⟩
  have hlenpos : 0 < Nat.find hrep - i0 := by omega
  refine ⟨(List.range (Nat.find hrep - i0)).map
    (fun t => f^[Nat.find hrep - 1 - t] x0), ⟨?_, ?_, ?_⟩, ?_⟩
  · intro hnil
    rw [List.map_eq_nil_iff, List.range_eq_nil] at hnil
    omega
  · apply List.Nodup.map_on ?_ (List.nodup_range _)
    intro p hp q hq hpq
    rw [List.mem_range] at hp hq
    by_contra hne2
    have hA : i0 ≤ Nat.find hrep - 1 - p := by omega
    have hB : Nat.find hrep - 1 - p < Nat.find hrep := by omega
    have hC : i0 ≤ Nat.find hrep - 1 - q := by omega
    have hD : Nat.find hrep - 1 - q < Nat.find hrep := by omega
    rcases Nat.lt_or_ge (Nat.find hrep - 1 - p) (Nat.find hrep - 1 - q) with hlt | hge
    · exact hinj _ _ hlt hD hpq
    · have hlt2 : Nat.find hrep - 1 - q < Nat.find hrep - 1 - p := by omega
      exact hinj _ _ hlt2 hB hpq.symm
  · intro i
    have hclen : ((List.range (Nat.find hrep - i0)).map
        (fun t => f^[Nat.find hrep - 1 - t] x0)).length = Nat.find hrep - i0 := by
      simp
    have hget : ∀ (t : Nat) (ht : t < ((List.range (Nat.find hrep - i0)).map
        (fun t => f^[Nat.find hrep - 1 - t] x0)).length),
        ((List.range (Nat.find hrep - i0)).map
          (fun t => f^[Nat.find hrep - 1 - t] x0)).get ⟨t, ht⟩
          = f^[Nat.find hrep - 1 - t] x0 := by
      intro t ht
      simp [List.get_eq_getElem]
    rw [hget i.val i.isLt, hget _ (Nat.mod_lt _ (Nat.lt_of_le_of_lt (Nat.zero_le _) i.isLt))]
    have hix : i.val < Nat.find hrep - i0 := lt_of_lt_of_eq i.isLt hclen
    by_cases hlast : i.val + 1 < Nat.find hrep - i0
    · have hmod : (i.val + 1) % ((List.range (Nat.find hrep - i0)).map
          (fun t => f^[Nat.find hrep - 1 - t] x0)).length = i.val + 1 :=
        Nat.mod_eq_of_lt (lt_of_lt_of_eq hlast hclen.symm)
      rw [hmod]
      have e1 : Nat.find hrep - 1 - i.val = (Nat.find hrep - 2 - i.val) + 1 := by omega
      have e2 : Nat.find hrep - 1 - (i.val + 1) = Nat.find hrep - 2 - i.val := by omega
      rw [e1, e2]
      exact hedge _
    · have h9 : i.val + 1 = ((List.range (Nat.find hrep - i0)).map
          (fun t => f^[Nat.find hrep - 1 - t] x0)).length :=
        Eq.trans (show i.val + 1 = Nat.find hrep - i0 by omega) hclen.symm
      have hmod : (i.val + 1) % ((List.range (Nat.find hrep - i0)).map
          (fun t => f^[Nat.find hrep - 1 - t] x0)).length = 0 := by
        rw [h9, Nat.mod_self]
      rw [hmod]
      have e1 : Nat.find hrep - 1 - i.val = i0 := by omega
      have e2 : Nat.find hrep - 1 - 0 = Nat.find hrep - 1 := by omega
      rw [e1, e2]
      have h4 := hedge (Nat.find hrep - 1)
      have e3 : Nat.find hrep - 1 + 1 = Nat.find hrep := by omega
      rw [e3] at h4
      rw [← heq] at h4
      exact h4
  · intro x hx
    rcases List.mem_map.mp hx with ⟨t, _, rfl⟩
    exact hg _

/-- A helper for concrete witnesses: looking a key up in a singleton registry. -/
theorem lookup_singleton_pkg {β : Type} (k a : String) (b : β) (t : β)
    (h : List.lookup k [(a, b)] = some t) : k = a ∧ t = b := by
  by_cases hk : k = a
  · subst hk
    simp [List.lookup] at h
    exact ⟨rfl, h.symm⟩
  · rw [List.lookup, beq_eq_false_iff_ne.mpr hk] at h
    simp [List.lookup] at h

/-! ## Claim theorems -/

/-- Claim C2 (amended): a syntax error in any scanned file is raised out of the
worker pool and aborts the whole dependency-gathering pass; no per-file
diagnostic is produced.  The pass succeeds exactly when every scanned file
parses. -/
theorem c2_syntaxError_aborts_pass (read : String → PyFile) (paths : List String) :
    (gatherAllImports read paths = .error () ↔ ∃ p ∈ paths, read p = .invalid) ∧
    ((∃ p ∈ paths, read p = .invalid) → ∀ rs, gatherAllImports read paths ≠ .ok rs) := by
  have main : gatherAllImports read paths = .error () ↔ ∃ p ∈ paths, read p = .invalid := by
    induction paths with
    | nil => simp [gatherAllImports]
    | cons p ps ih =>
      constructor
      · intro h
        by_cases hp : read p = .invalid
        · exact ⟨p, List.mem_cons_self p ps, hp⟩
        · have hps : gatherAllImports read ps = .error () := by
            unfold gatherAllImports gatherDependenciesFromModule at h
            cases hread : read p with
            | invalid => exact absurd hread hp
            | valid stmts =>
              simp only [hread] at h
              cases hrec : gatherAllImports read ps with
              | error e => rfl
              | ok rs =>
                simp only [hrec] at h
                exact Except.noConfusion h
          rcases ih.mp hps with ⟨q, hq, hinv⟩
          exact ⟨q, List.mem_cons_of_mem p hq, hinv⟩
      · rintro ⟨q, hq, hinv⟩
        unfold gatherAllImports gatherDependenciesFromModule
        rcases List.mem_cons.mp hq with rfl | hq2
        · simp only [hinv]
        · cases hread : read p with
          | invalid => simp only [hread]
          | valid stmts =>
            simp only [hread, ih.mpr ⟨q, hq2, hinv⟩]
  refine ⟨main, fun h rs hok => ?_⟩
  rw [main.mpr h] at hok
  exact Except.noConfusion hok

/-- Claim C2 counterexample: with one unparseable file among the scanned
paths, the gathering pass does not return per-file diagnostics alongside the
successful results — it aborts with the propagated `SyntaxError`. -/
theorem c2_counterexample :
    gatherAllImports
      (fun p => if p = "pkg/bad.py" then PyFile.invalid else .valid [.imp "os" []])
      ["pkg/good.py", "pkg/bad.py", "pkg/also_good.py"] = .error () := rfl

/-- Claim C2 witness: the amended theorem applied to the concrete failing
input above. -/
theorem c2_witness :
    gatherAllImports
      (fun p => if p = "pkg/bad.py" then PyFile.invalid else .valid [.imp "os" []])
      ["pkg/good.py", "pkg/bad.py", "pkg/also_good.py"] ≠ .ok [] :=
  (c2_syntaxError_aborts_pass _ _).2 ⟨"pkg/bad.py", by decide, by decide⟩ []

/-- Claim C3 counterexample: a code package discovered at `lib/foo` with the
single source entry `foo_pkg` is registered under the map key `"foo_pkg"`
(its package name), while the target's own key is the build directory
`"lib/foo/src"`; looking the registry up at `T.key` therefore fails. -/
theorem c3_counterexample :
    registerCodeTarget [] [] (DiscoveredCodePackage.mk "lib" "foo" "lib/foo/src" "foo_pkg" none) =
      .ok [("foo_pkg", Target.mk .library "lib/foo/src" "foo_pkg")] ∧
    (Target.mk .library "lib/foo/src" "foo_pkg").key = "lib/foo/src" ∧
    List.lookup (Target.mk .library "lib/foo/src" "foo_pkg").key
      [("foo_pkg", Target.mk .library "lib/foo/src" "foo_pkg")] = none :=
  ⟨rfl, rfl, by decide⟩

/-- Claim C3 (amended): discovery registers a code target in the registry
under the target's package name (the basename of its single `src` entry), not
under the target's own key (which is the build directory).  Looking the
registry up at the package name yields the target. -/
theorem c3_registered_under_package_name (ign : List String)
    (ts : List (String × Target)) (d : DiscoveredCodePackage) (t : Target)
    (hmk : mkCodeTarget d = some t) (hig : t.key ∉ ign)
    (hdup : List.lookup d.srcPackageName ts = none) :
    registerCodeTarget ign ts d = .ok (ts ++ [(d.srcPackageName, t)]) ∧
    t.packageName = d.srcPackageName ∧
    List.lookup d.srcPackageName (ts ++ [(d.srcPackageName, t)]) = some t := by
  refine ⟨?_, ?_, lookup_append_single ts _ t hdup⟩
  · unfold registerCodeTarget
    rw [hmk]
    simp [hig, hdup]
  · unfold mkCodeTarget at hmk
    cases hpt : d.pkgType with
    | none =>
      simp only [hpt] at hmk
      have h2 := Option.some.inj hmk
      subst h2
      rfl
    | some ty =>
      simp only [hpt] at hmk
      cases hb : buildTargetMapKind ty with
      | none => simp [hb] at hmk
      | some kk =>
        rw [hb] at hmk
        simp only [Option.map] at hmk
        have h2 := Option.some.inj hmk
        subst h2
        rfl

/-- Claim C3 witness: the amended theorem at a concrete discovered package of
configured type `binary`. -/
theorem c3_witness :
    registerCodeTarget [] [] (DiscoveredCodePackage.mk "lib" "bar" "lib/bar/src" "bar_pkg" (some "binary")) =
      .ok ([] ++ [("bar_pkg", Target.mk .binary "lib/bar/src" "bar_pkg")]) ∧
    (Target.mk .binary "lib/bar/src" "bar_pkg").packageName = "bar_pkg" ∧
    List.lookup "bar_pkg" ([] ++ [("bar_pkg", Target.mk .binary "lib/bar/src" "bar_pkg")]) =
      some (Target.mk .binary "lib/bar/src" "bar_pkg") :=
  c3_registered_under_package_name [] []
    (DiscoveredCodePackage.mk "lib" "bar" "lib/bar/src" "bar_pkg" (some "binary"))
    (Target.mk .binary "lib/bar/src" "bar_pkg") rfl (by decide) rfl

/-- Claim C4 counterexample: an aggregate (py2sfn) project target's
`find_target_paths` does not return zero pairs — it returns one pair, its
`project.sfn` manifest, which is submitted to the import scanner. -/
theorem c4_counterexample :
    findTargetPathsPy2sfn
      ⟨.py2sfnProject, "stepfunctions/projects/demo", "stepfunctions/projects/demo"⟩ ≠ [] ∧
    (findTargetPathsPy2sfn
      ⟨.py2sfnProject, "stepfunctions/projects/demo", "stepfunctions/projects/demo"⟩).length = 1 :=
  ⟨by decide, rfl⟩

/-- Claim C4 (amended): for every aggregate (py2sfn) project target,
`find_target_paths` returns exactly one (owner, file) pair — the project's
`project.sfn` manifest under its build directory; no other file of the package
tree is submitted to the scanner. -/
theorem c4_findTargetPaths_manifest_only (t : Target) :
    findTargetPathsPy2sfn t = [(t, pathJoin t.key "project.sfn")] ∧
    (findTargetPathsPy2sfn t).length = 1 :=
  ⟨rfl, rfl⟩

/-- Claim C5: resolving one scanned import name `n` for a file-scanning target
`self` (with the registry mapping package names to their targets): if `n` is a
registered package name other than `self`'s own, the registered target is
added; otherwise, if `n` is in the third-party import map, a Requirement
pseudo-target for the mapped name is added; otherwise nothing is added; and a
target never ends up in its own resolved dependency set. -/
theorem c5_addDependency_resolution (reqDir : String) (targets : List (String × Target))
    (tpm : List (String × String)) (self : Target) (deps : List Target) (n : String)
    (Hpkg : ∀ k t, List.lookup k targets = some t → t.packageName = k) :
    (∀ t, List.lookup n targets = some t → n ≠ self.packageName →
      addDependency reqDir targets tpm self deps n = pyInsert t deps) ∧
    (∀ r, List.lookup n tpm = some r → (List.lookup n targets = none ∨ n = self.packageName) →
      addDependency reqDir targets tpm self deps n = pyInsert (requirementTarget reqDir r) deps) ∧
    (List.lookup n tpm = none → List.lookup n targets = none →
      addDependency reqDir targets tpm self deps n = deps) ∧
    (List.lookup n tpm = none → n = self.packageName →
      addDependency reqDir targets tpm self deps n = deps) ∧
    (self.kind ≠ .requirement → self ∉ deps → ∀ names : List String,
      self ∉ names.foldl (addDependency reqDir targets tpm self) deps) := by
  refine ⟨?_, ?_, ?_, ?_, ?_⟩
  · intro t hl hne
    unfold addDependency
    rw [hl]
    simp [hne]
  · intro r hr hcase
    unfold addDependency
    rcases hcase with hnone | hself
    · rw [hnone, hr]
    · subst hself
      cases hl : List.lookup self.packageName targets with
      | none => rw [hr]
      | some t => simp [hr]
  · intro hr hnone
    unfold addDependency
    rw [hnone, hr]
  · intro hr hself
    unfold addDependency
    subst hself
    cases hl : List.lookup self.packageName targets with
    | none => rw [hr]
    | some t => simp [hr]
  · intro hk hd names
    exact self_not_mem_foldl_addDependency reqDir targets tpm self deps names Hpkg hk hd

/-- Claim C5 witness: the spec's own scenario — `pkg_a` importing `pkg_b` and
`requests` resolves an edge to the registered `pkg_b` target, and `pkg_a`
never appears in its own dependency set. -/
theorem c5_witness :
    addDependency "3rdparty/python" [("pkg_b", Target.mk .library "lib/pkg_b/src" "pkg_b")]
      [("requests", "requests")] (Target.mk .library "lib/pkg_a/src" "pkg_a") [] "pkg_b" =
      pyInsert (Target.mk .library "lib/pkg_b/src" "pkg_b") [] ∧
    (Target.mk .library "lib/pkg_a/src" "pkg_a") ∉
      (["pkg_b", "requests", "pkg_a"].foldl
        (addDependency "3rdparty/python" [("pkg_b", Target.mk .library "lib/pkg_b/src" "pkg_b")]
          [("requests", "requests")] (Target.mk .library "lib/pkg_a/src" "pkg_a")) []) := by
  have Hpkg : ∀ k t,
      List.lookup k [("pkg_b", Target.mk .library "lib/pkg_b/src" "pkg_b")] = some t →
      t.packageName = k := by
    intro k t h
    rcases lookup_singleton_pkg k "pkg_b" (Target.mk .library "lib/pkg_b/src" "pkg_b") t h with
      ⟨hk, ht⟩
    rw [ht, hk]
  have h := c5_addDependency_resolution "3rdparty/python"
    [("pkg_b", Target.mk .library "lib/pkg_b/src" "pkg_b")] [("requests", "requests")]
    (Target.mk .library "lib/pkg_a/src" "pkg_a") [] "pkg_b" Hpkg
  exact ⟨h.1 (Target.mk .library "lib/pkg_b/src" "pkg_b") rfl (by decide),
    h.2.2.2.2 (by decide) (List.not_mem_nil _) ["pkg_b", "requests", "pkg_a"]⟩

/-- Claim C7 counterexample: a Migration-kind target's dependency descriptor is
its bare key, not the key suffixed with `:lib` — `AlembicMigrationPackage`
does not override `dependency_target`. -/
theorem c7_counterexample :
    dependencyTarget ⟨.migration, "dbmigrations/foo/src", "foo_migrations"⟩ =
      "dbmigrations/foo/src" ∧
    dependencyTarget ⟨.migration, "dbmigrations/foo/src", "foo_migrations"⟩ ≠
      "dbmigrations/foo/src" ++ ":lib" :=
  ⟨rfl, by decide⟩

/-- Claim C7 (amended): for Binary and Lambda targets the dependency descriptor
other targets use is the key suffixed with `":lib"`; for every other variant —
including Migration — it is the bare key. -/
theorem c7_dependencyTarget_runnable (t : Target) :
    (t.kind = .binary ∨ t.kind = .lambdaFunction → dependencyTarget t = t.key ++ ":lib") ∧
    (t.kind ≠ .binary → t.kind ≠ .lambdaFunction → dependencyTarget t = t.key) := by
  obtain ⟨k, key, pn⟩ := t
  constructor
  · rintro (h | h) <;> (simp only at h; rw [h]) <;> rfl
  · intro h1 h2
    simp only at h1 h2
    cases k <;> first | rfl | exact absurd rfl h1 | exact absurd rfl h2

/-- Claim C7 witness: the spec's scenario — a Binary target referenced as a
dependency yields `key:lib`. -/
theorem c7_witness :
    dependencyTarget ⟨.binary, "services/svc_a/src", "svc_a"⟩ =
      "services/svc_a/src" ++ ":lib" :=
  (c7_dependencyTarget_runnable ⟨.binary, "services/svc_a/src", "svc_a"⟩).1 (Or.inl rfl)

/-- Claim C8: a transitive-dependency query with an unregistered key fails with
`NoTargetFound`, whose message carries all registered keys sorted
lexicographically (joined with `", "`). -/
theorem c8_unknown_target_error (p : Processor) (k : String) (b : Bool)
    (h : List.lookup k p.targets = none) :
    computePackageDependencies p k b =
      .error (.noTargetFound ("No target registered named " ++ k ++
        ". Available targets: " ++
        String.intercalate ", " (p.targets.map Prod.fst).mergeSort)) ∧
    (p.targets.map Prod.fst).mergeSort.Perm (p.targets.map Prod.fst) ∧
    List.Sorted (fun a b => a ≤ b) (p.targets.map Prod.fst).mergeSort := by
  refine ⟨?_, List.mergeSort_perm _ _, List.sorted_mergeSort' _⟩
  unfold computePackageDependencies availableTargetsMessage
  rw [h]

/-- Claim C8 witness: the theorem at a concrete two-target registry and an
unknown key; the message lists the keys in sorted order. -/
theorem c8_witness :
    computePackageDependencies
      ⟨[("b", ⟨.library, "lib/b/src", "b"⟩), ("a", ⟨.library, "lib/a/src", "a"⟩)], ⟨[], []⟩⟩
      "zzz" true =
      .error (.noTargetFound ("No target registered named " ++ "zzz" ++
        ". Available targets: " ++
        String.intercalate ", " ([("b", Target.mk .library "lib/b/src" "b"),
          ("a", ⟨.library, "lib/a/src", "a"⟩)].map Prod.fst).mergeSort)) ∧
    ([("b", Target.mk .library "lib/b/src" "b"),
      ("a", ⟨.library, "lib/a/src", "a"⟩)].map Prod.fst).mergeSort.Perm
      ([("b", Target.mk .library "lib/b/src" "b"),
        ("a", ⟨.library, "lib/a/src", "a"⟩)].map Prod.fst) ∧
    List.Sorted (fun a b => a ≤ b)
      ([("b", Target.mk .library "lib/b/src" "b"),
        ("a", ⟨.library, "lib/a/src", "a"⟩)].map Prod.fst).mergeSort :=
  c8_unknown_target_error
    ⟨[("b", ⟨.library, "lib/b/src", "b"⟩), ("a", ⟨.library, "lib/a/src", "a"⟩)], ⟨[], []⟩⟩
    "zzz" true rfl

/-- Claim C9 counterexample: the scanner reports a name for a purely relative
statement — `from .sibling.mod import x` (level 1, module `"sibling.mod"`) yields
`"sibling"`, because `visit_ImportFrom` never consults `node.level`. -/
theorem c9_counterexample :
    "sibling" ∈ collectImports [.impFrom 1 (some "sibling.mod")] ∧
    collectImports [.impFrom 1 (some "sibling.mod")] ≠ (∅ : Finset String) := by
  constructor <;> decide

/-- Claim C9 (amended): a relative import with an empty module part
(`from . import x`) is never reported; a relative import with a module part
(`from .m import x`) is reported by the module's leading segment — the
relative level is ignored entirely. -/
theorem c9_relative_imports (lvl : Nat) (m : String) (rest : List ImportStmt) :
    collectImports (.impFrom lvl none :: rest) = collectImports rest ∧
    collectImports (.impFrom lvl (some m) :: rest) =
      insert (firstSegment m) (collectImports rest) := by
  constructor
  · rw [collectImports_cons]; simp [visitStmt]
  · rw [collectImports_cons]; simp [visitStmt, Finset.insert_eq]

/-- Claim C10: a plain import statement naming several modules contributes only
the leading segment of the first listed module; the modules after the first
are ignored by the scanner. -/
theorem c10_import_first_name_only (first : String) (rest : List String)
    (tail : List ImportStmt) :
    collectImports (.imp first rest :: tail) =
      insert (firstSegment first) (collectImports tail) ∧
    collectImports [.imp "alpha" ["beta", "gamma"]] = {"alpha"} := by
  constructor
  · rw [collectImports_cons]; simp [visitStmt, Finset.insert_eq]
  · decide

/-- Claim C6: the cycle check raises a circular-imports error if and only if
the built graph contains at least one simple cycle; the error carries the full
list of all simple cycles (every member is a simple cycle, and every simple
cycle of the graph appears in it, as a rotation); on an acyclic graph it
raises nothing. -/
theorem c6_cycle_detection (ts : List (Target × List Target)) :
    (∀ cs, ensureNoCircularImports (buildTargetGraph ts) = .error cs →
      cs = simpleCycles (buildTargetGraph ts) ∧ cs ≠ [] ∧
      (∀ c ∈ cs, IsSimpleCycleIn (buildTargetGraph ts).edges c) ∧
      (∀ l, IsSimpleCycleIn (buildTargetGraph ts).edges l →
        ∃ c ∈ cs, ∃ n, c = l.rotate n)) ∧
    (ensureNoCircularImports (buildTargetGraph ts) = .ok () ↔
      ∀ l, ¬ IsSimpleCycleIn (buildTargetGraph ts).edges l) := by
  have hok := buildTargetGraph_edgesOk ts
  constructor
  · intro cs herr
    unfold ensureNoCircularImports at herr
    by_cases hnil : simpleCycles (buildTargetGraph ts) = []
    · rw [hnil] at herr
      simp at herr
    · rw [if_pos (by exact List.length_pos.mpr hnil)] at herr
      have hcs := (Except.error.inj herr).symm
      subst hcs
      refine ⟨rfl, hnil, fun c hc => simpleCycles_sound hc,
        fun l hl => simpleCycles_complete hok hl⟩
  · constructor
    · intro hh l hcyc
      rcases simpleCycles_complete hok hcyc with ⟨c, hcmem, _⟩
      by_cases hnil : simpleCycles (buildTargetGraph ts) = []
      · rw [hnil] at hcmem
        exact List.not_mem_nil c hcmem
      · unfold ensureNoCircularImports at hh
        rw [if_pos (by exact List.length_pos.mpr hnil)] at hh
        exact Except.noConfusion hh
    · intro hno
      have hnil := (simpleCycles_eq_nil_iff hok).mpr hno
      unfold ensureNoCircularImports
      rw [hnil]
      rfl

/-- Claim C6 witness: the spec's synthetic example `a → b, b → c, c → a` — the
check raises, the reported list is exactly one cycle holding all three
targets, every reported entry is a simple cycle, and every simple cycle of the
graph is a rotation of a reported one. -/
theorem c6_witness :
    [[tgtB, tgtC, tgtA]] = simpleCycles (buildTargetGraph cycleTs) ∧
    [[tgtB, tgtC, tgtA]] ≠ [] ∧
    (∀ c ∈ [[tgtB, tgtC, tgtA]], IsSimpleCycleIn (buildTargetGraph cycleTs).edges c) ∧
    (∀ l, IsSimpleCycleIn (buildTargetGraph cycleTs).edges l →
      ∃ c ∈ [[tgtB, tgtC, tgtA]], ∃ n, c = l.rotate n) :=
  (c6_cycle_detection cycleTs).1 [[tgtB, tgtC, tgtA]] (by rfl)

/-- Claim C1 counterexample: on the validated acyclic chain `k → a → b`, the
query for `k` returns `[a, b]` — the dependent `a` before its dependency `b` —
so for the edge `a → b` between two returned targets, `b` does not appear
before `a` as the claim requires. -/
theorem c1_counterexample :
    computePackageDependencies chainProc "k" true = .ok [tgtA, tgtB] ∧
    (tgtA, tgtB) ∈ chainProc.graph.edges ∧
    ¬ [tgtB, tgtA].Sublist [tgtA, tgtB] :=
  ⟨by rfl, by decide, by decide⟩

/-- Claim C1 (amended): for every validated acyclic graph and registered key,
the query (with third-party targets included) returns exactly the targets
reachable from the key's target via outgoing depends-on edges, without
duplicates, in a topological order with dependents before dependencies: for
every edge `A → B` between two returned targets, `A` appears before `B`. -/
theorem c1_compute_topological (p : Processor) (k : String) (t : Target)
    (hok : p.graph.EdgesOk)
    (hval : simpleCycles p.graph = [])
    (hlook : List.lookup k p.targets = some t) :
    ∃ out, computePackageDependencies p k true = .ok out ∧ out.Nodup ∧
      (∀ x, x ∈ out ↔ (Reaches p.graph.edges t x ∧ x ≠ t)) ∧
      (∀ a b, (a, b) ∈ p.graph.edges → a ∈ out → b ∈ out → [a, b].Sublist out) := by
  have hnodup_sub : (subgraphOn p.graph (descendantsOf p.graph t)).nodes.Nodup :=
    (List.nodup_dedup p.graph.nodes).filter _
  have hds_sub : ∀ x ∈ descendantsOf p.graph t, x ∈ p.graph.nodes := by
    intro x hx
    rcases (mem_descendantsOf_iff hok t x).mp hx with ⟨hr, hne⟩
    cases hr with
    | refl => exact absurd rfl hne
    | tail hab hbc => exact (hok _ hbc).2
  have hmem_sub : ∀ x, x ∈ (subgraphOn p.graph (descendantsOf p.graph t)).nodes ↔
      x ∈ descendantsOf p.graph t := by
    intro x
    constructor
    · intro hx
      exact of_decide_eq_true (List.mem_filter.mp hx).2
    · intro hx
      exact List.mem_filter.mpr ⟨List.mem_dedup.mpr (hds_sub x hx), decide_eq_true hx⟩
  obtain ⟨out, hout⟩ : ∃ out,
      topologicalSortG (subgraphOn p.graph (descendantsOf p.graph t)) = some out := by
    cases hs : topologicalSortG (subgraphOn p.graph (descendantsOf p.graph t)) with
    | some out => exact ⟨out, rfl⟩
    | none =>
      exfalso
      unfold topologicalSortG at hs
      rcases kahnAux_none_stuck _ _ _ (le_refl _) hs with ⟨rr, hrne, hrsub, hpick⟩
      rcases stuck_has_cycle hrne (kahnPick_none hpick) with ⟨l, hcyc, _⟩
      have hcyc2 : IsSimpleCycleIn p.graph.edges l :=
        isSimpleCycleIn_mono (fun q hq => (List.mem_filter.mp hq).1) hcyc
      rcases simpleCycles_complete hok hcyc2 with ⟨cc, hccmem, _⟩
      rw [hval] at hccmem
      exact List.not_mem_nil cc hccmem
  have hperm : out.Perm (subgraphOn p.graph (descendantsOf p.graph t)).nodes := by
    unfold topologicalSortG at hout
    exact kahnAux_perm _ _ _ _ hout
  refine ⟨out, ?_, ?_, ?_, ?_⟩
  · simp only [computePackageDependencies, hlook, hout, if_true]
  · exact hperm.nodup_iff.mpr hnodup_sub
  · intro x
    rw [hperm.mem_iff, hmem_sub x, mem_descendantsOf_iff hok]
  · intro a b hab ha hb
    have ha2 := hperm.mem_iff.mp ha
    have hb2 := hperm.mem_iff.mp hb
    have hedge2 : (a, b) ∈ (subgraphOn p.graph (descendantsOf p.graph t)).edges := by
      refine List.mem_filter.mpr ⟨hab, ?_⟩
      simp only [Bool.and_eq_true, decide_eq_true_eq]
      exact ⟨(hmem_sub a).mp ha2, (hmem_sub b).mp hb2⟩
    unfold topologicalSortG at hout
    exact kahnAux_order _ _ _ hnodup_sub out hout a b hedge2 ha2 hb2

/-- Claim C1 witness: the amended theorem instantiated on the concrete chain
`k → a → b`. -/
theorem c1_witness :
    ∃ out, computePackageDependencies chainProc "k" true = .ok out ∧ out.Nodup ∧
      (∀ x, x ∈ out ↔ (Reaches chainProc.graph.edges tgtK x ∧ x ≠ tgtK)) ∧
      (∀ a b, (a, b) ∈ chainProc.graph.edges → a ∈ out → b ∈ out →
        [a, b].Sublist out) :=
  c1_compute_topological chainProc "k" tgtK (by decide) (by rfl) (by rfl)

end Pypants
